import Mathlib

/-!
Verification of the fee-map core of `mobilecoin`
(`consensus/enclave/api/src/fee_map.rs` and `transaction/core/src/token.rs`).

The Rust `BTreeMap<TokenId, u64>` is embedded as an association list whose
keys are strictly ascending; `TokenId` wraps a `u32` value and fees are `u64`
values, both embedded as `Nat` (the code performs no arithmetic on them apart
from fixed constants far below `2^64`, only comparisons and map operations,
so wrap-around can never occur).  The Merlin digest transcript lives in the
external `mc-crypto-digestible` crate; it is modelled from the spec as a
symbolic transcript, with `extract_digest` an injective rendering of the
transcript into a `String` (the spec's collision-resistance idealization).
-/

namespace FeeMapSpec

/-- Rust `TokenId` wraps a `u32`; only equality and order are ever used, so the
numeric value is embedded as `Nat`. `0` is the base asset MOB. -/
abbrev TokenId := Nat

/-- The constant `TokenId::MOB`, the reserved base-asset identifier `0`. -/
def TokenId.MOB : TokenId := 0

/-- Modelled from the spec: `MICROMOB_TO_PICOMOB` lives in
`transaction/core/src/constants.rs`, which is not part of the sources here;
the spec says the base minimum fee derives from a micro-unit to pico-unit
conversion constant, and one micro-unit is `10^6` pico-units. -/
def MICROMOB_TO_PICOMOB : Nat := 1000000

/-- The MOB token capability (`impl Token for Mob` in `token.rs`):
`ID = TokenId::MOB`. -/
def Mob.ID : TokenId := TokenId.MOB

/-- The constant `Mob::MINIMUM_FEE` = `400 * MICROMOB_TO_PICOMOB`, denominated in picoMOB. -/
def Mob.MINIMUM_FEE : Nat := 400 * MICROMOB_TO_PICOMOB

/-! ### The `BTreeMap<TokenId, u64>` model -/

/-- Keys strictly ascending: the canonical iteration order of a `BTreeMap`. -/
def keysAscending (l : List (TokenId × Nat)) : Prop :=
  List.Pairwise (fun a b => a.1 < b.1) l

instance keysAscending_decidable (l : List (TokenId × Nat)) :
    Decidable (keysAscending l) := by
  unfold keysAscending; infer_instance

/-- A `BTreeMap<TokenId, u64>`: entries sorted strictly ascending by key. -/
structure BTreeMap where
  entries : List (TokenId × Nat)
  ascending : keysAscending entries

theorem BTreeMap.ext_entries {m₁ m₂ : BTreeMap} (h : m₁.entries = m₂.entries) :
    m₁ = m₂ := by
  cases m₁; cases m₂; simp only at h; subst h; rfl

instance : DecidableEq BTreeMap := fun a b =>
  decidable_of_iff (a.entries = b.entries)
    ⟨BTreeMap.ext_entries, fun h => by rw [h]⟩

/-- The empty map (`BTreeMap::new()`). -/
def BTreeMap.empty : BTreeMap := ⟨[], List.Pairwise.nil⟩

/-- Association-list lookup by key (first entry with the given key). -/
def alookup (k : TokenId) : List (TokenId × Nat) → Option Nat
  | [] => none
  | p :: rest => if k = p.1 then some p.2 else alookup k rest

/-- Rust `BTreeMap::get` (cloned): the fee stored under `k`, if any. -/
def BTreeMap.lookup (m : BTreeMap) (k : TokenId) : Option Nat :=
  alookup k m.entries

/-- Rust `BTreeMap::contains_key`. -/
def BTreeMap.contains_key (m : BTreeMap) (k : TokenId) : Bool :=
  (m.lookup k).isSome

/-- Sorted insertion into the entry list, replacing an equal key
(`BTreeMap::insert` semantics). -/
def insertEntry (k : TokenId) (v : Nat) : List (TokenId × Nat) → List (TokenId × Nat)
  | [] => [(k, v)]
  | p :: rest =>
    if k < p.1 then (k, v) :: p :: rest
    else if k = p.1 then (k, v) :: rest
    else p :: insertEntry k v rest

theorem mem_insertEntry {q : TokenId × Nat} (k : TokenId) (v : Nat)
    (l : List (TokenId × Nat)) (hmem : q ∈ insertEntry k v l) :
    q.1 = k ∨ q ∈ l := by
  induction l with
  | nil =>
    have : q = (k, v) := by simpa [insertEntry] using hmem
    exact Or.inl (by simp [this])
  | cons r rs ihr =>
    by_cases hk1 : k < r.1
    · simp only [insertEntry, if_pos hk1, List.mem_cons] at hmem
      rcases hmem with h | h | h
      · exact Or.inl (by simp [h])
      · exact Or.inr (by simp [h])
      · exact Or.inr (List.mem_cons_of_mem _ h)
    · by_cases hk2 : k = r.1
      · simp only [insertEntry, if_neg hk1, if_pos hk2, List.mem_cons] at hmem
        rcases hmem with h | h
        · exact Or.inl (by simp [h])
        · exact Or.inr (List.mem_cons_of_mem _ h)
      · simp only [insertEntry, if_neg hk1, if_neg hk2, List.mem_cons] at hmem
        rcases hmem with h | h
        · exact Or.inr (by simp [h])
        · rcases ihr h with h' | h'
          · exact Or.inl h'
          · exact Or.inr (List.mem_cons_of_mem _ h')

theorem insertEntry_ascending (k : TokenId) (v : Nat) (l : List (TokenId × Nat))
    (h : keysAscending l) : keysAscending (insertEntry k v l) := by
  induction l with
  | nil => simp [insertEntry, keysAscending]
  | cons p rest ih =>
    rcases List.pairwise_cons.mp h with ⟨hp, hrest⟩
    by_cases h1 : k < p.1
    · simp only [insertEntry, if_pos h1]
      refine List.pairwise_cons.mpr ⟨?_, h⟩
      intro q hq
      rcases List.mem_cons.mp hq with hq' | hq'
      · simpa [hq'] using h1
      · exact lt_trans h1 (hp q hq')
    · by_cases h2 : k = p.1
      · simp only [insertEntry, if_neg h1, if_pos h2]
        exact List.pairwise_cons.mpr ⟨fun q hq => h2 ▸ hp q hq, hrest⟩
      · simp only [insertEntry, if_neg h1, if_neg h2]
        refine List.pairwise_cons.mpr ⟨?_, ih hrest⟩
        intro q hq
        rcases mem_insertEntry k v rest hq with h' | h'
        · rw [h']; exact lt_of_le_of_ne (not_lt.mp h1) (Ne.symm h2)
        · exact hp q h'

/-- Rust `BTreeMap::insert` (value-level). -/
def BTreeMap.insert (m : BTreeMap) (k : TokenId) (v : Nat) : BTreeMap :=
  ⟨insertEntry k v m.entries, insertEntry_ascending k v m.entries m.ascending⟩

/-- Rust `BTreeMap::from_iter`: left fold of `insert` over the pair sequence,
so a later pair with the same key overwrites an earlier one. -/
def BTreeMap.from_list (l : List (TokenId × Nat)) : BTreeMap :=
  l.foldl (fun m p => m.insert p.1 p.2) BTreeMap.empty

/-! ### The Merlin transcript / digest model

Modelled from the spec: `MerlinTranscript` and the `Digestible` trait live in
the external `mc-crypto-digestible` crate, not in the sources here.  The spec
describes the digest as a domain-separated transcript — init with a label,
append a sequence-length header, append each identifier and fee under labeled
slots, finalize — whose collision resistance is an inherited assumption and
whose exact byte encoding is a pluggable deterministic canonical encoding.
The transcript is therefore kept symbolic (a list of labeled events) and
`extract_digest` renders it as a `String` through an injective canonical
encoding, which is the idealization of a collision-free 32-byte hash. -/

/-- One labeled event appended to a digest transcript. -/
inductive TEvent
  | seqHeader (label : String) (len : Nat)
  | elem (label : String) (value : Nat)
deriving DecidableEq

/-- Modelled from the spec: the symbolic digest transcript. -/
structure MerlinTranscript where
  protocol_label : String
  events : List TEvent
deriving DecidableEq

/-- Rust `MerlinTranscript::new(label)`. -/
def MerlinTranscript.new (label : String) : MerlinTranscript := ⟨label, []⟩

/-- Rust `DigestTranscript::append_seq_header(label, len)`. -/
def MerlinTranscript.append_seq_header (t : MerlinTranscript) (label : String)
    (len : Nat) : MerlinTranscript :=
  ⟨t.protocol_label, t.events ++ [TEvent.seqHeader label len]⟩

/-- Rust `value.append_to_transcript(label, transcript)`: the `Digestible`
canonical append of a numeric value under a labeled slot. -/
def append_to_transcript (value : Nat) (label : String)
    (t : MerlinTranscript) : MerlinTranscript :=
  ⟨t.protocol_label, t.events ++ [TEvent.elem label value]⟩

/-- Canonical rendering of a number: a marker then a unary block. -/
def encNat (n : Nat) : List Char := '|' :: List.replicate n 'x'

/-- Canonical rendering of one transcript event. -/
def encEvent : TEvent → List Char
  | TEvent.seqHeader label n => '#' :: (label.data ++ encNat n)
  | TEvent.elem label v => '@' :: (label.data ++ encNat v)

/-- Canonical rendering of a whole transcript. -/
def encTranscript (t : MerlinTranscript) : List Char :=
  '!' :: (t.protocol_label.data ++ t.events.flatMap encEvent)

/-- Rust `transcript.extract_digest` followed by `hex::encode`: modelled from the
spec as an injective canonical rendering of the transcript (the
collision-resistance idealization of the 32-byte hash). -/
def MerlinTranscript.extract_digest (t : MerlinTranscript) : String :=
  String.mk (encTranscript t)

/-- Rust `calc_digest_for_map`: init transcript with label `fee_map`, append the
sequence header `map.len() * 2`, append each `(token_id, fee)` pair in
ascending key order under the labels `token_id` and `fee`, and extract. -/
def calc_digest_for_map (map : BTreeMap) : String :=
  let transcript := MerlinTranscript.new "fee_map"
  let transcript := transcript.append_seq_header "fee_map" (map.entries.length * 2)
  let transcript := map.entries.foldl
    (fun tr p => append_to_transcript p.2 "fee" (append_to_transcript p.1 "token_id" tr))
    transcript
  transcript.extract_digest

/-! ### `ResponderId`, the error type, and `FeeMap` -/

/-- Modelled from the spec: `ResponderId` (from `mc-common`, not in the
sources here) is an opaque string-wrapped node address; this core only
concatenates onto it. The wrapped string is field `s`. -/
structure ResponderId where
  s : String
deriving DecidableEq

/-- The fee-map error enum. -/
inductive Error
  | InvalidFee (token_id : TokenId) (fee : Nat)
  | MissingFee (token_id : TokenId)
deriving DecidableEq

/-- The `FeeMap` struct: the map plus the cached digest string. -/
structure FeeMap where
  map : BTreeMap
  cached_digest : String
deriving DecidableEq

/-- Rust `FeeMap::default_map()`: a fresh map holding `Mob::ID ↦ Mob::MINIMUM_FEE`. -/
def FeeMap.default_map : BTreeMap :=
  BTreeMap.empty.insert Mob.ID Mob.MINIMUM_FEE

/-- Rust `FeeMap::default()` (the `Default` impl). -/
def FeeMap.default : FeeMap :=
  ⟨FeeMap.default_map, calc_digest_for_map FeeMap.default_map⟩

/-- Rust `FeeMap::is_valid_map`: the first entry (in ascending key order) with a
zero fee yields `InvalidFee`; otherwise a missing `Mob::ID` key yields
`MissingFee`; otherwise `Ok(())`. -/
def FeeMap.is_valid_map (minimum_fees : BTreeMap) : Except Error Unit :=
  match minimum_fees.entries.find? (fun p => p.2 == 0) with
  | some p => Except.error (Error.InvalidFee p.1 p.2)
  | none =>
    if minimum_fees.contains_key Mob.ID then Except.ok ()
    else Except.error (Error.MissingFee Mob.ID)

/-- Rust `TryFrom<BTreeMap<TokenId, u64>> for FeeMap`: validate, then construct
with a freshly computed digest. -/
def FeeMap.try_from (map : BTreeMap) : Except Error FeeMap :=
  match FeeMap.is_valid_map map with
  | Except.error e => Except.error e
  | Except.ok () => Except.ok ⟨map, calc_digest_for_map map⟩

/-- Rust `FeeMap::try_from_iter`: materialize the `BTreeMap` from the pair
sequence, then `try_from`. -/
def FeeMap.try_from_iter (l : List (TokenId × Nat)) : Except Error FeeMap :=
  FeeMap.try_from (BTreeMap.from_list l)

/-- Rust `FeeMap::responder_id`: `format!("{}-{}", responder_id.0, cached_digest)`. -/
def FeeMap.responder_id (self : FeeMap) (responder_id : ResponderId) : ResponderId :=
  ⟨responder_id.s ++ "-" ++ self.cached_digest⟩

/-- Rust `FeeMap::get_fee_for_token`. -/
def FeeMap.get_fee_for_token (self : FeeMap) (token_id : TokenId) : Option Nat :=
  self.map.lookup token_id

/-- Rust `FeeMap::update_or_default`, in state-passing form: the returned `FeeMap`
is the state of `self` after the call (unchanged when validation fails, since
the `?` on `is_valid_map` returns early before any field is assigned), and
the returned `Except` is the Rust `Result<(), Error>`. -/
def FeeMap.update_or_default (self : FeeMap) (minimum_fees : Option BTreeMap) :
    FeeMap × Except Error Unit :=
  match minimum_fees with
  | some mf =>
    match FeeMap.is_valid_map mf with
    | Except.error e => (self, Except.error e)
    | Except.ok () => (⟨mf, calc_digest_for_map mf⟩, Except.ok ())
  | none =>
    (⟨FeeMap.default_map, calc_digest_for_map FeeMap.default_map⟩, Except.ok ())

/-! ### Derived notions used by the claims -/

/-- The canonical rendering of one map entry inside the digest transcript
(the `token_id` element followed by the `fee` element), right-nested. -/
def entryEnc (p : TokenId × Nat) : List Char :=
  '@' :: ("token_id".data ++ ('|' :: (List.replicate p.1 'x' ++
    ('@' :: ("fee".data ++ ('|' :: List.replicate p.2 'x'))))))

/-- The `FeeMap` state invariant: all fees strictly positive, the MOB key
present, and the cached digest consistent with the map. -/
def FeeMapInvariant (s : FeeMap) : Prop :=
  (∀ p ∈ s.map.entries, 0 < p.2) ∧
  s.map.contains_key Mob.ID = true ∧
  s.cached_digest = calc_digest_for_map s.map

/-- States reachable through the public constructors and any sequence of
`update_or_default` calls. -/
inductive Reachable : FeeMap → Prop
  | default_ctor : Reachable FeeMap.default
  | try_from_ctor (m : BTreeMap) (s : FeeMap) :
      FeeMap.try_from m = Except.ok s → Reachable s
  | try_from_iter_ctor (l : List (TokenId × Nat)) (s : FeeMap) :
      FeeMap.try_from_iter l = Except.ok s → Reachable s
  | update_step (s s' : FeeMap) (mf : Option BTreeMap) (r : Except Error Unit) :
      Reachable s → s.update_or_default mf = (s', r) → Reachable s'

/-! ### Lookup lemmas -/

theorem alookup_insertEntry (k' k : TokenId) (v : Nat) (l : List (TokenId × Nat)) :
    alookup k' (insertEntry k v l) =
      if k' = k then some v else alookup k' l := by
  induction l with
  | nil => simp [insertEntry, alookup]
  | cons p rest ih =>
    by_cases h1 : k < p.1
    · simp [insertEntry, if_pos h1, alookup]
    · by_cases h2 : k = p.1
      · by_cases h3 : k' = k
        · simp [insertEntry, if_neg h1, if_pos h2, alookup, h3]
        · simp [insertEntry, if_neg h1, if_pos h2, alookup, h3, h2 ▸ h3]
      · by_cases h3 : k' = p.1
        · have hne : ¬ k' = k := fun hk => h2 (hk ▸ h3)
          have hne' : ¬ p.1 = k := fun hk => h2 hk.symm
          simp [insertEntry, if_neg h1, if_neg h2, alookup, h3, hne, hne']
        · simp [insertEntry, if_neg h1, if_neg h2, alookup, h3, ih]

theorem mem_of_alookup_eq_some {k : TokenId} {v : Nat} {l : List (TokenId × Nat)}
    (h : alookup k l = some v) : (k, v) ∈ l := by
  induction l with
  | nil => simp [alookup] at h
  | cons p rest ih =>
    by_cases hk : k = p.1
    · simp only [alookup, if_pos hk, Option.some.injEq] at h
      subst hk; subst h
      exact List.mem_cons_self _ _
    · simp only [alookup, if_neg hk] at h
      exact List.mem_cons_of_mem _ (ih h)

theorem alookup_eq_none_iff (k : TokenId) (l : List (TokenId × Nat)) :
    alookup k l = none ↔ ∀ q ∈ l, k ≠ q.1 := by
  induction l with
  | nil => simp [alookup]
  | cons p rest ih =>
    by_cases hk : k = p.1
    · simp [alookup, if_pos hk, hk]
    · simp only [alookup, if_neg hk, ih, List.mem_cons]
      constructor
      · intro h q hq
        rcases hq with hq | hq
        · exact hq ▸ hk
        · exact h q hq
      · intro h q hq
        exact h q (Or.inr hq)

theorem alookup_isSome_of_mem {k : TokenId} {v : Nat} {l : List (TokenId × Nat)}
    (h : (k, v) ∈ l) : (alookup k l).isSome = true := by
  induction l with
  | nil => simp at h
  | cons p rest ih =>
    rcases List.mem_cons.mp h with h' | h'
    · simp [alookup, ← h']
    · by_cases hk : k = p.1
      · simp [alookup, if_pos hk]
      · simp [alookup, if_neg hk, ih h']

theorem alookup_append (k : TokenId) (a b : List (TokenId × Nat)) :
    alookup k (a ++ b) = (alookup k a).or (alookup k b) := by
  induction a with
  | nil => simp [alookup]
  | cons p rest ih =>
    by_cases hk : k = p.1
    · simp [alookup, if_pos hk]
    · simp [alookup, if_neg hk, ih]

/-- A strictly-ascending association list is determined by its lookup
function. -/
theorem alookup_ext (l₁ l₂ : List (TokenId × Nat))
    (h₁ : keysAscending l₁) (h₂ : keysAscending l₂)
    (h : ∀ k, alookup k l₁ = alookup k l₂) : l₁ = l₂ := by
  induction l₁ generalizing l₂ with
  | nil =>
    cases l₂ with
    | nil => rfl
    | cons q t₂ =>
      have := h q.1
      simp [alookup] at this
  | cons p t₁ ih =>
    cases l₂ with
    | nil =>
      have := h p.1
      simp [alookup] at this
    | cons q t₂ =>
      rcases List.pairwise_cons.mp h₁ with ⟨hp, ht₁⟩
      rcases List.pairwise_cons.mp h₂ with ⟨hq, ht₂⟩
      have hkey : p.1 = q.1 := by
        by_contra hne
        rcases lt_or_gt_of_ne hne with hlt | hgt
        · have hl : alookup p.1 (p :: t₁) = some p.2 := by simp [alookup]
          have hr : alookup p.1 (q :: t₂) = none := by
            simp only [alookup, if_neg hne]
            exact (alookup_eq_none_iff _ _).mpr
              (fun r hr => Nat.ne_of_lt (lt_trans hlt (hq r hr)))
          rw [h p.1, hr] at hl
          exact Option.noConfusion hl
        · have hl : alookup q.1 (q :: t₂) = some q.2 := by simp [alookup]
          have hr : alookup q.1 (p :: t₁) = none := by
            have hne' : q.1 ≠ p.1 := fun hx => hne hx.symm
            simp only [alookup, if_neg hne']
            exact (alookup_eq_none_iff _ _).mpr
              (fun r hr => Nat.ne_of_lt (lt_trans hgt (hp r hr)))
          rw [← h q.1, hr] at hl
          exact Option.noConfusion hl
      have hval : p.2 = q.2 := by
        have := h p.1
        simp [alookup, hkey] at this
        exact this
      have hpq : p = q := Prod.ext hkey hval
      subst hpq
      congr 1
      refine ih t₂ ht₁ ht₂ ?_
      intro k
      by_cases hk : k = p.1
      · subst hk
        have hn₁ : alookup p.1 t₁ = none :=
          (alookup_eq_none_iff _ _).mpr (fun r hr => Nat.ne_of_lt (hp r hr))
        have hn₂ : alookup p.1 t₂ = none :=
          (alookup_eq_none_iff _ _).mpr (fun r hr => Nat.ne_of_lt (hq r hr))
        rw [hn₁, hn₂]
      · have := h k
        simpa [alookup, if_neg hk] using this

/-- Lookup in a left fold of inserts: the last write for each key wins, and
keys untouched by the fold keep their value from the initial map. -/
theorem lookup_foldl_insert (l : List (TokenId × Nat)) (m : BTreeMap) (k : TokenId) :
    (l.foldl (fun m p => m.insert p.1 p.2) m).lookup k =
      (alookup k l.reverse).or (m.lookup k) := by
  induction l generalizing m with
  | nil => simp [alookup]
  | cons p rest ih =>
    simp only [List.foldl_cons, List.reverse_cons]
    rw [ih, alookup_append]
    by_cases hk : k = p.1
    · simp [alookup, if_pos hk, BTreeMap.lookup, BTreeMap.insert,
        alookup_insertEntry, hk, Option.or]
      cases alookup p.1 rest.reverse <;> rfl
    · simp [alookup, if_neg hk, BTreeMap.lookup, BTreeMap.insert,
        alookup_insertEntry, hk]

/-- The map `BTreeMap.from_list l` binds every key to the last value supplied for it. -/
theorem lookup_from_list (l : List (TokenId × Nat)) (k : TokenId) :
    (BTreeMap.from_list l).lookup k = alookup k l.reverse := by
  rw [BTreeMap.from_list, lookup_foldl_insert]
  simp [BTreeMap.lookup, BTreeMap.empty, alookup]

/-! ### Injectivity of the digest on maps -/

theorem foldl_append_transcript (l : List (TokenId × Nat)) (tr : MerlinTranscript) :
    l.foldl (fun tr p =>
        append_to_transcript p.2 "fee" (append_to_transcript p.1 "token_id" tr)) tr =
      ⟨tr.protocol_label, tr.events ++
        l.flatMap (fun p => [TEvent.elem "token_id" p.1, TEvent.elem "fee" p.2])⟩ := by
  induction l generalizing tr with
  | nil => simp
  | cons p rest ih =>
    simp only [List.foldl_cons, List.flatMap_cons]
    rw [ih]
    simp [append_to_transcript, List.append_assoc]

theorem flatMap_encEvent_pairs (l : List (TokenId × Nat)) :
    (l.flatMap (fun p => [TEvent.elem "token_id" p.1, TEvent.elem "fee" p.2])).flatMap
        encEvent = l.flatMap entryEnc := by
  induction l with
  | nil => simp
  | cons p rest ih =>
    simp only [List.flatMap_cons, List.flatMap_append, ih]
    simp [encEvent, entryEnc, encNat, List.append_assoc]

/-- Rewriting `calc_digest_for_map` in right-nested normal form. -/
theorem calc_digest_eq (m : BTreeMap) :
    calc_digest_for_map m = String.mk ('!' :: ("fee_map".data ++
      ('#' :: ("fee_map".data ++ ('|' :: (List.replicate (m.entries.length * 2) 'x' ++
        m.entries.flatMap entryEnc)))))) := by
  simp only [calc_digest_for_map]
  rw [foldl_append_transcript]
  simp only [MerlinTranscript.new, MerlinTranscript.append_seq_header,
    MerlinTranscript.extract_digest, encTranscript, List.nil_append,
    List.singleton_append, List.flatMap_cons, encEvent, encNat,
    flatMap_encEvent_pairs]
  simp [List.append_assoc]

/-- Cancelling a unary block: if both suffixes do not start with the unary
character, equal concatenations force equal block lengths and suffixes. -/
theorem replicate_block_cancel {a b : Nat} {s₁ s₂ : List Char}
    (h₁ : ∀ c ∈ s₁.head?, c ≠ 'x') (h₂ : ∀ c ∈ s₂.head?, c ≠ 'x')
    (h : List.replicate a 'x' ++ s₁ = List.replicate b 'x' ++ s₂) :
    a = b ∧ s₁ = s₂ := by
  induction a generalizing b with
  | zero =>
    cases b with
    | zero => simpa using h
    | succ b =>
      rw [List.replicate_zero, List.nil_append, List.replicate_succ] at h
      exfalso
      exact h₁ 'x' (by rw [h]; rfl) rfl
  | succ a ih =>
    cases b with
    | zero =>
      rw [List.replicate_zero, List.nil_append, List.replicate_succ] at h
      exfalso
      exact h₂ 'x' (by rw [← h]; rfl) rfl
    | succ b =>
      rw [List.replicate_succ, List.replicate_succ, List.cons_append,
        List.cons_append] at h
      have h' := (List.cons.injEq _ _ _ _).mp h
      rcases ih h'.2 with ⟨hab, hs⟩
      exact ⟨by rw [hab], hs⟩

theorem flatMap_entryEnc_head (l : List (TokenId × Nat)) :
    ∀ c ∈ (l.flatMap entryEnc).head?, c = '@' := by
  cases l with
  | nil => simp
  | cons p rest =>
    simp [entryEnc, List.flatMap_cons]

theorem entryEnc_append (p : TokenId × Nat) (r : List Char) :
    entryEnc p ++ r = '@' :: ("token_id".data ++ ('|' :: (List.replicate p.1 'x' ++
      ('@' :: ("fee".data ++ ('|' :: (List.replicate p.2 'x' ++ r))))))) := by
  simp [entryEnc, List.cons_append, List.append_assoc]

theorem flatMap_entryEnc_head_ne (l : List (TokenId × Nat)) :
    ∀ c ∈ (l.flatMap entryEnc).head?, c ≠ 'x' := by
  intro c hc
  rw [flatMap_entryEnc_head l c hc]
  decide

/-- The entry-block rendering is injective on entry lists. -/
theorem flatMap_entryEnc_inj (l₁ l₂ : List (TokenId × Nat))
    (h : l₁.flatMap entryEnc = l₂.flatMap entryEnc) : l₁ = l₂ := by
  induction l₁ generalizing l₂ with
  | nil =>
    cases l₂ with
    | nil => rfl
    | cons q t₂ => simp [entryEnc, List.flatMap_cons] at h
  | cons p t₁ ih =>
    cases l₂ with
    | nil => simp [entryEnc, List.flatMap_cons] at h
    | cons q t₂ =>
      simp only [List.flatMap_cons] at h
      rw [entryEnc_append, entryEnc_append] at h
      injection h with hc h1
      have h2 := List.append_cancel_left h1
      injection h2 with hc2 h3
      have hfee₁ : ∀ c ∈ (('@' :: ("fee".data ++ ('|' :: (List.replicate p.2 'x'
          ++ t₁.flatMap entryEnc)))) : List Char).head?, c ≠ 'x' := by
        intro c hc
        simp only [List.head?_cons, Option.mem_def, Option.some.injEq] at hc
        rw [← hc]; decide
      have hfee₂ : ∀ c ∈ (('@' :: ("fee".data ++ ('|' :: (List.replicate q.2 'x'
          ++ t₂.flatMap entryEnc)))) : List Char).head?, c ≠ 'x' := by
        intro c hc
        simp only [List.head?_cons, Option.mem_def, Option.some.injEq] at hc
        rw [← hc]; decide
      rcases replicate_block_cancel hfee₁ hfee₂ h3 with ⟨hk, h4⟩
      injection h4 with hc3 h5
      have h6 := List.append_cancel_left h5
      injection h6 with hc4 h7
      rcases replicate_block_cancel (flatMap_entryEnc_head_ne t₁)
        (flatMap_entryEnc_head_ne t₂) h7 with ⟨hv, h8⟩
      rw [ih t₂ h8, Prod.ext hk hv]

theorem string_data_inj {s t : String} (h : s.data = t.data) : s = t := by
  cases s; cases t
  simp only at h
  rw [h]

/-- The digest function is injective on maps: this is the symbolic form of
the spec's collision-resistance requirement. -/
theorem calc_digest_inj {m₁ m₂ : BTreeMap}
    (h : calc_digest_for_map m₁ = calc_digest_for_map m₂) : m₁ = m₂ := by
  rw [calc_digest_eq, calc_digest_eq] at h
  have h0 := congrArg String.data h
  simp only at h0
  injection h0 with hc h1
  have h2 := List.append_cancel_left h1
  injection h2 with hc2 h3
  have h4 := List.append_cancel_left h3
  injection h4 with hc3 h5
  rcases replicate_block_cancel (flatMap_entryEnc_head_ne m₁.entries)
    (flatMap_entryEnc_head_ne m₂.entries) h5 with ⟨hlen, h6⟩
  exact BTreeMap.ext_entries (flatMap_entryEnc_inj _ _ h6)

/-! ### Characterization of `is_valid_map` -/

/-- In a strictly-ascending entry list, `find?` of the zero-fee predicate
returns exactly the zero-fee entry with the least key. -/
theorem find_zero_first (l : List (TokenId × Nat)) (hs : keysAscending l)
    (x : TokenId × Nat) :
    l.find? (fun p => p.2 == 0) = some x ↔
      (x.2 = 0 ∧ x ∈ l ∧ ∀ p ∈ l, p.2 = 0 → x.1 ≤ p.1) := by
  induction l with
  | nil => simp
  | cons r rest ih =>
    rcases List.pairwise_cons.mp hs with ⟨hr, hrest⟩
    by_cases hz : r.2 = 0
    · rw [List.find?_cons_of_pos _ (by simpa using hz)]
      constructor
      · intro h
        have hx : x = r := by
          have := h
          simp only [Option.some.injEq] at this
          exact this.symm
        subst hx
        refine ⟨hz, List.mem_cons_self _ _, ?_⟩
        intro p hp _
        rcases List.mem_cons.mp hp with h' | h'
        · rw [h']
        · exact le_of_lt (hr p h')
      · rintro ⟨hx0, hxmem, hleast⟩
        rcases List.mem_cons.mp hxmem with h' | h'
        · rw [h']
        · exfalso
          have h1 : x.1 ≤ r.1 := hleast r (List.mem_cons_self _ _) hz
          have h2 : r.1 < x.1 := hr x h'
          exact absurd h1 (not_le.mpr h2)
    · rw [List.find?_cons_of_neg _ (by simpa using hz)]
      rw [ih hrest]
      constructor
      · rintro ⟨hx0, hxmem, hleast⟩
        refine ⟨hx0, List.mem_cons_of_mem _ hxmem, ?_⟩
        intro p hp hp0
        rcases List.mem_cons.mp hp with h' | h'
        · exact absurd (h' ▸ hp0) hz
        · exact hleast p h' hp0
      · rintro ⟨hx0, hxmem, hleast⟩
        rcases List.mem_cons.mp hxmem with h' | h'
        · exact absurd (h' ▸ hx0) hz
        · exact ⟨hx0, h', fun p hp hp0 => hleast p (List.mem_cons_of_mem _ hp) hp0⟩

theorem find_zero_none_iff (l : List (TokenId × Nat)) :
    l.find? (fun p => p.2 == 0) = none ↔ ∀ p ∈ l, p.2 ≠ 0 := by
  rw [List.find?_eq_none]
  constructor
  · intro h p hp
    simpa using h p hp
  · intro h p hp
    simpa using h p hp

theorem contains_key_iff (m : BTreeMap) (k : TokenId) :
    m.contains_key k = true ↔ ∃ v, (k, v) ∈ m.entries := by
  constructor
  · intro h
    rcases Option.isSome_iff_exists.mp h with ⟨v, hv⟩
    exact ⟨v, mem_of_alookup_eq_some hv⟩
  · rintro ⟨v, hv⟩
    exact alookup_isSome_of_mem hv

/-- Validation `is_valid_map` succeeds exactly when all fees are nonzero and the MOB
key is present. -/
theorem is_valid_map_ok_iff (m : BTreeMap) :
    FeeMap.is_valid_map m = Except.ok () ↔
      (∀ p ∈ m.entries, p.2 ≠ 0) ∧ m.contains_key Mob.ID = true := by
  unfold FeeMap.is_valid_map
  cases hf : m.entries.find? (fun p => p.2 == 0) with
  | some p =>
    constructor
    · intro h; exact Except.noConfusion h
    · rintro ⟨hall, -⟩
      have hp := List.find?_some hf
      have hpm := List.mem_of_find?_eq_some hf
      exact absurd (by simpa using hp) (hall p hpm)
  | none =>
    by_cases hc : m.contains_key Mob.ID = true
    · rw [if_pos hc]
      exact ⟨fun _ => ⟨(find_zero_none_iff _).mp hf, hc⟩, fun _ => rfl⟩
    · rw [if_neg hc]
      constructor
      · intro h; exact Except.noConfusion h
      · rintro ⟨-, hc'⟩; exact absurd hc' hc

/-- Validation `is_valid_map` reports `InvalidFee` exactly for the least-key zero-fee
entry. -/
theorem is_valid_map_invalidFee_iff (m : BTreeMap) (i : TokenId) (f : Nat) :
    FeeMap.is_valid_map m = Except.error (Error.InvalidFee i f) ↔
      (f = 0 ∧ (i, f) ∈ m.entries ∧ ∀ p ∈ m.entries, p.2 = 0 → i ≤ p.1) := by
  unfold FeeMap.is_valid_map
  cases hf : m.entries.find? (fun p => p.2 == 0) with
  | some p =>
    simp only [Except.error.injEq, Error.InvalidFee.injEq]
    constructor
    · rintro ⟨hi, hfe⟩
      subst hi; subst hfe
      have := (find_zero_first m.entries m.ascending p).mp hf
      simpa using this
    · rintro ⟨hf0, hmem, hleast⟩
      have h2 : m.entries.find? (fun p => p.2 == 0) = some (i, f) :=
        (find_zero_first m.entries m.ascending (i, f)).mpr ⟨hf0, hmem, hleast⟩
      rw [hf] at h2
      have hpi : p = (i, f) := Option.some.inj h2
      rw [hpi]
      exact ⟨rfl, rfl⟩
  | none =>
    by_cases hc : m.contains_key Mob.ID = true
    · rw [if_pos hc]
      constructor
      · intro h; exact Except.noConfusion h
      · rintro ⟨hf0, hmem, -⟩
        exact absurd (hf0 ▸ rfl) ((find_zero_none_iff _).mp hf (i, f) hmem)
    · rw [if_neg hc]
      constructor
      · intro h
        exact Error.noConfusion (Except.error.inj h)
      · rintro ⟨hf0, hmem, -⟩
        exact absurd (hf0 ▸ rfl) ((find_zero_none_iff _).mp hf (i, f) hmem)

/-- Validation `is_valid_map` reports `MissingFee` exactly when all fees are nonzero
and the MOB key is absent; the reported identifier is always `Mob::ID`. -/
theorem is_valid_map_missingFee_iff (m : BTreeMap) (i : TokenId) :
    FeeMap.is_valid_map m = Except.error (Error.MissingFee i) ↔
      (i = Mob.ID ∧ (∀ p ∈ m.entries, p.2 ≠ 0) ∧
        m.contains_key Mob.ID = false) := by
  unfold FeeMap.is_valid_map
  cases hf : m.entries.find? (fun p => p.2 == 0) with
  | some p =>
    constructor
    · intro h
      exact Error.noConfusion (Except.error.inj h)
    · rintro ⟨-, hall, -⟩
      have hp := List.find?_some hf
      have hpm := List.mem_of_find?_eq_some hf
      exact absurd (by simpa using hp) (hall p hpm)
  | none =>
    by_cases hc : m.contains_key Mob.ID = true
    · rw [if_pos hc]
      constructor
      · intro h; exact Except.noConfusion h
      · rintro ⟨-, -, hc'⟩
        rw [hc] at hc'
        exact Bool.noConfusion hc'
    · rw [if_neg hc]
      constructor
      · intro h
        have hi := Error.MissingFee.inj (Except.error.inj h)
        exact ⟨hi.symm, (find_zero_none_iff _).mp hf, by simpa using hc⟩
      · rintro ⟨hi, -, -⟩
        rw [hi]

/-! ### The state invariant and reachability -/

theorem try_from_ok {m : BTreeMap} {s : FeeMap}
    (h : FeeMap.try_from m = Except.ok s) :
    FeeMap.is_valid_map m = Except.ok () ∧
      s = ⟨m, calc_digest_for_map m⟩ := by
  unfold FeeMap.try_from at h
  cases hv : FeeMap.is_valid_map m with
  | error e => rw [hv] at h; exact Except.noConfusion h
  | ok u =>
    cases u
    rw [hv] at h
    exact ⟨rfl, (Except.ok.inj h).symm⟩

theorem valid_map_invariant {m : BTreeMap}
    (h : FeeMap.is_valid_map m = Except.ok ()) :
    FeeMapInvariant ⟨m, calc_digest_for_map m⟩ := by
  rcases (is_valid_map_ok_iff m).mp h with ⟨hall, hc⟩
  exact ⟨fun p hp => Nat.pos_of_ne_zero (hall p hp), hc, rfl⟩

theorem default_map_valid :
    FeeMap.is_valid_map FeeMap.default_map = Except.ok () := by
  rfl

theorem update_or_default_some (s : FeeMap) (m : BTreeMap) :
    s.update_or_default (some m) =
      match FeeMap.is_valid_map m with
      | Except.error e => (s, Except.error e)
      | Except.ok _ => (⟨m, calc_digest_for_map m⟩, Except.ok ()) := rfl

theorem update_or_default_none (s : FeeMap) :
    s.update_or_default none =
      (⟨FeeMap.default_map, calc_digest_for_map FeeMap.default_map⟩,
        Except.ok ()) := rfl

/-- Every reachable state satisfies the invariant. -/
theorem reachable_invariant (s : FeeMap) (h : Reachable s) : FeeMapInvariant s := by
  induction h with
  | default_ctor =>
    exact valid_map_invariant default_map_valid
  | try_from_ctor m s hok =>
    rcases try_from_ok hok with ⟨hv, hs⟩
    rw [hs]
    exact valid_map_invariant hv
  | try_from_iter_ctor l s hok =>
    rcases try_from_ok hok with ⟨hv, hs⟩
    rw [hs]
    exact valid_map_invariant hv
  | update_step s s' mf r hreach hupd ih =>
    cases mf with
    | none =>
      rw [update_or_default_none] at hupd
      have hs' := congrArg Prod.fst hupd
      simp only at hs'
      rw [← hs']
      exact valid_map_invariant default_map_valid
    | some m =>
      rw [update_or_default_some] at hupd
      cases hv : FeeMap.is_valid_map m with
      | error e =>
        rw [hv] at hupd
        have hupd' : (s, (Except.error e : Except Error Unit)) = (s', r) := hupd
        have hs' := congrArg Prod.fst hupd'
        simp only at hs'
        rw [← hs']
        exact ih
      | ok u =>
        cases u
        rw [hv] at hupd
        have hupd' : ((⟨m, calc_digest_for_map m⟩ : FeeMap),
            (Except.ok () : Except Error Unit)) = (s', r) := hupd
        have hs' := congrArg Prod.fst hupd'
        simp only at hs'
        rw [← hs']
        exact valid_map_invariant hv

/-! ### Permutation invariance of `from_list` -/

theorem alookup_perm (l₁ l₂ : List (TokenId × Nat))
    (hp : List.Perm l₁ l₂) (hnd : (l₁.map Prod.fst).Nodup) (k : TokenId) :
    alookup k l₁ = alookup k l₂ := by
  induction hp with
  | nil => rfl
  | cons x hperm ih =>
    have hnd' : (List.map Prod.fst _).Nodup := (List.nodup_cons.mp hnd).2
    by_cases hk : k = x.1
    · simp [alookup, if_pos hk]
    · simp only [alookup, if_neg hk]
      exact ih hnd'
  | swap x y l =>
    have hxy : y.1 ≠ x.1 := by
      have := (List.nodup_cons.mp hnd).1
      intro he
      exact this (by simp [he])
    by_cases hk : k = y.1
    · have hk' : ¬ k = x.1 := fun h => hxy (h ▸ hk).symm
      simp [alookup, hk, hk', hxy]
    · by_cases hk2 : k = x.1
      · simp [alookup, hk, hk2, Ne.symm hxy]
      · simp [alookup, hk, hk2]
  | trans h₁ h₂ ih₁ ih₂ =>
    have hnd₂ : (List.map Prod.fst _).Nodup :=
      ((h₁.map Prod.fst).nodup_iff).mp hnd
    rw [ih₁ hnd, ih₂ hnd₂]

/-- Building the map from any permutation of a duplicate-free pair list
yields the same map. -/
theorem from_list_perm (l₁ l₂ : List (TokenId × Nat))
    (hp : List.Perm l₁ l₂) (hnd : (l₁.map Prod.fst).Nodup) :
    BTreeMap.from_list l₁ = BTreeMap.from_list l₂ := by
  apply BTreeMap.ext_entries
  apply alookup_ext _ _ (BTreeMap.from_list l₁).ascending (BTreeMap.from_list l₂).ascending
  intro k
  have h₁ : alookup k (BTreeMap.from_list l₁).entries = alookup k l₁.reverse :=
    lookup_from_list l₁ k
  have h₂ : alookup k (BTreeMap.from_list l₂).entries = alookup k l₂.reverse :=
    lookup_from_list l₂ k
  rw [h₁, h₂]
  have hprev : List.Perm l₁.reverse l₂.reverse :=
    (l₁.reverse_perm.trans hp).trans l₂.reverse_perm.symm
  have hndrev : (l₁.reverse.map Prod.fst).Nodup := by
    rw [List.map_reverse]
    exact List.nodup_reverse.mpr hnd
  exact alookup_perm l₁.reverse l₂.reverse hprev hndrev k

/-! ### The claims -/

/-- C1: every `FeeMap` reachable through the public operations
(`Default::default`, `TryFrom::try_from`, `try_from_iter`, and any sequence
of `update_or_default` calls) satisfies the state invariant: all fees are
strictly positive, `Mob::ID` is present as a key, and `cached_digest`
equals `calc_digest_for_map` of the current map. -/
theorem C1_reachable_state_invariant (s : FeeMap) (h : Reachable s) :
    (∀ p ∈ s.map.entries, 0 < p.2) ∧
      s.map.contains_key Mob.ID = true ∧
      s.cached_digest = calc_digest_for_map s.map :=
  reachable_invariant s h

theorem C1_reachable_state_invariant_witness :
    (∀ p ∈ FeeMap.default.map.entries, 0 < p.2) ∧
      FeeMap.default.map.contains_key Mob.ID = true ∧
      FeeMap.default.cached_digest = calc_digest_for_map FeeMap.default.map :=
  C1_reachable_state_invariant FeeMap.default Reachable.default_ctor

/-- C2: when validation of the supplied mapping fails,
`update_or_default(Some(m))` returns the validation error and leaves the
state (both the map and the cached digest) exactly as it was. -/
theorem C2_update_error_atomic (s : FeeMap) (m : BTreeMap) (e : Error)
    (h : FeeMap.is_valid_map m = Except.error e) :
    s.update_or_default (some m) = (s, Except.error e) := by
  rw [update_or_default_some, h]

theorem C2_update_error_atomic_witness :
    FeeMap.is_valid_map BTreeMap.empty = Except.error (Error.MissingFee Mob.ID) ∧
      FeeMap.default.update_or_default (some BTreeMap.empty) =
        (FeeMap.default, Except.error (Error.MissingFee Mob.ID)) :=
  ⟨rfl, C2_update_error_atomic FeeMap.default BTreeMap.empty
    (Error.MissingFee Mob.ID) rfl⟩

/-- C3: `is_valid_map` returns `InvalidFee (i, 0)` exactly for the first
zero-fee entry in ascending identifier order (the zero-fee entry with the
least identifier), `MissingFee (Mob::ID)` exactly when all fees are nonzero
but the base identifier is absent, and `Ok(())` otherwise; in particular it
sends the empty map to `MissingFee` and `{MOB ↦ 0}` to `InvalidFee`. -/
theorem C3_is_valid_map_characterization (m : BTreeMap) :
    (∀ i f, FeeMap.is_valid_map m = Except.error (Error.InvalidFee i f) ↔
      (f = 0 ∧ (i, f) ∈ m.entries ∧ ∀ p ∈ m.entries, p.2 = 0 → i ≤ p.1)) ∧
    (∀ i, FeeMap.is_valid_map m = Except.error (Error.MissingFee i) ↔
      (i = Mob.ID ∧ (∀ p ∈ m.entries, p.2 ≠ 0) ∧
        m.contains_key Mob.ID = false)) ∧
    (FeeMap.is_valid_map m = Except.ok () ↔
      ((∀ p ∈ m.entries, p.2 ≠ 0) ∧ m.contains_key Mob.ID = true)) ∧
    FeeMap.is_valid_map BTreeMap.empty = Except.error (Error.MissingFee Mob.ID) ∧
    FeeMap.is_valid_map (BTreeMap.empty.insert Mob.ID 0) =
      Except.error (Error.InvalidFee Mob.ID 0) :=
  ⟨fun i f => is_valid_map_invalidFee_iff m i f,
   fun i => is_valid_map_missingFee_iff m i,
   is_valid_map_ok_iff m, rfl, rfl⟩

theorem C3_is_valid_map_characterization_witness :
    FeeMap.is_valid_map BTreeMap.empty = Except.error (Error.MissingFee Mob.ID) :=
  (C3_is_valid_map_characterization BTreeMap.empty).2.2.2.1

/-- C4: the constructed map and digest are pure functions of the set of
pairs: permuting a duplicate-free input sequence leaves `try_from_iter`
unchanged, and `try_from` agrees on maps with identical contents. -/
theorem C4_digest_independent_of_insertion_order
    (l₁ l₂ : List (TokenId × Nat)) (m₁ m₂ : BTreeMap)
    (hperm : List.Perm l₁ l₂) (hnd : (l₁.map Prod.fst).Nodup)
    (hm : m₁.entries = m₂.entries) :
    FeeMap.try_from_iter l₁ = FeeMap.try_from_iter l₂ ∧
      FeeMap.try_from m₁ = FeeMap.try_from m₂ := by
  constructor
  · unfold FeeMap.try_from_iter
    rw [from_list_perm l₁ l₂ hperm hnd]
  · rw [BTreeMap.ext_entries hm]

theorem C4_digest_independent_of_insertion_order_witness :
    FeeMap.try_from_iter [(Mob.ID, 100), (2, 2000)] =
        FeeMap.try_from_iter [(2, 2000), (Mob.ID, 100)] ∧
      FeeMap.try_from BTreeMap.empty = FeeMap.try_from BTreeMap.empty :=
  C4_digest_independent_of_insertion_order _ _ _ _
    (List.Perm.swap (2, 2000) (Mob.ID, 100) []) (by decide) rfl

/-- C5: two valid maps that differ anywhere yield `FeeMap`s whose
`responder_id` outputs, for a common base identity, are different strings
(under the injective-digest idealization of the transcript hash). -/
theorem C5_distinct_maps_distinct_responder_ids
    (m₁ m₂ : BTreeMap) (b : ResponderId) (s₁ s₂ : FeeMap)
    (h₁ : FeeMap.is_valid_map m₁ = Except.ok ())
    (h₂ : FeeMap.is_valid_map m₂ = Except.ok ())
    (hne : m₁ ≠ m₂)
    (hs₁ : FeeMap.try_from m₁ = Except.ok s₁)
    (hs₂ : FeeMap.try_from m₂ = Except.ok s₂) :
    s₁.responder_id b ≠ s₂.responder_id b := by
  intro heq
  rcases try_from_ok hs₁ with ⟨-, e₁⟩
  rcases try_from_ok hs₂ with ⟨-, e₂⟩
  subst e₁; subst e₂
  have hd : b.s ++ "-" ++ calc_digest_for_map m₁ =
      b.s ++ "-" ++ calc_digest_for_map m₂ := congrArg ResponderId.s heq
  have hdata := congrArg String.data hd
  simp only [String.data_append, List.append_assoc] at hdata
  have h3 := List.append_cancel_left (List.append_cancel_left hdata)
  have hdig : calc_digest_for_map m₁ = calc_digest_for_map m₂ :=
    string_data_inj h3
  exact hne (calc_digest_inj hdig)

theorem C5_distinct_maps_distinct_responder_ids_witness :
    (FeeMap.mk (BTreeMap.empty.insert Mob.ID 5)
        (calc_digest_for_map (BTreeMap.empty.insert Mob.ID 5))).responder_id
        ⟨"1.2.3.4:5"⟩ ≠
      (FeeMap.mk (BTreeMap.empty.insert Mob.ID 7)
        (calc_digest_for_map (BTreeMap.empty.insert Mob.ID 7))).responder_id
        ⟨"1.2.3.4:5"⟩ :=
  C5_distinct_maps_distinct_responder_ids
    (BTreeMap.empty.insert Mob.ID 5) (BTreeMap.empty.insert Mob.ID 7)
    ⟨"1.2.3.4:5"⟩ _ _ rfl rfl (by decide) rfl rfl

/-- C6: `FeeMap::default()` holds exactly one entry, `Mob::ID` mapped to
`400 * MICROMOB_TO_PICOMOB`, with the digest computed for that map. -/
theorem C6_default_single_mob_entry :
    FeeMap.default.map.entries = [(Mob.ID, 400 * MICROMOB_TO_PICOMOB)] ∧
      FeeMap.default.cached_digest = calc_digest_for_map FeeMap.default.map :=
  ⟨rfl, rfl⟩

/-- C7: `update_or_default(None)` always succeeds and leaves the state equal
to `FeeMap::default()`, digest included. -/
theorem C7_update_none_resets_to_default (s : FeeMap) :
    s.update_or_default none = (FeeMap.default, Except.ok ()) := rfl

/-- C8: `responder_id` returns exactly the base identity string, a `-`
separator, and the cached digest, without inspecting the base string. -/
theorem C8_responder_id_concatenation (s : FeeMap) (b : ResponderId) :
    (s.responder_id b).s = b.s ++ "-" ++ s.cached_digest := rfl

/-- C9: `try_from_iter` equals `try_from` applied to the (unique) map that
binds each identifier to the last fee supplied for it in the sequence:
`from_list l` has exactly that lookup function, and any map with that
lookup function gives the same `try_from` result, errors included. -/
theorem C9_try_from_iter_last_write_wins (l : List (TokenId × Nat)) :
    FeeMap.try_from_iter l = FeeMap.try_from (BTreeMap.from_list l) ∧
    (∀ k, (BTreeMap.from_list l).lookup k = alookup k l.reverse) ∧
    (∀ m : BTreeMap, (∀ k, m.lookup k = alookup k l.reverse) →
      FeeMap.try_from_iter l = FeeMap.try_from m) := by
  refine ⟨rfl, lookup_from_list l, ?_⟩
  intro m hm
  have hm' : m = BTreeMap.from_list l := by
    apply BTreeMap.ext_entries
    apply alookup_ext _ _ m.ascending (BTreeMap.from_list l).ascending
    intro k
    have h1 : alookup k m.entries = alookup k l.reverse := hm k
    have h2 : alookup k (BTreeMap.from_list l).entries = alookup k l.reverse :=
      lookup_from_list l k
    rw [h1, h2]
  rw [hm']
  rfl

theorem C9_try_from_iter_last_write_wins_witness :
    FeeMap.try_from_iter [(Mob.ID, 5), (2, 7), (Mob.ID, 9)] =
      FeeMap.try_from (BTreeMap.from_list [(Mob.ID, 5), (2, 7), (Mob.ID, 9)]) :=
  (C9_try_from_iter_last_write_wins [(Mob.ID, 5), (2, 7), (Mob.ID, 9)]).1

/-- C10: a zero-fee entry always wins over a missing base key:
whenever some entry has fee zero, `is_valid_map` reports `InvalidFee` for
the zero-fee entry with the least identifier (never `MissingFee`), and
`MissingFee (Mob::ID)` is reported exactly when every fee is positive and
the base key is absent. -/
theorem C10_invalid_fee_takes_precedence (m : BTreeMap) :
    ((∃ p ∈ m.entries, p.2 = 0) →
      ∃ i, FeeMap.is_valid_map m = Except.error (Error.InvalidFee i 0) ∧
        (i, 0) ∈ m.entries ∧ ∀ p ∈ m.entries, p.2 = 0 → i ≤ p.1) ∧
    (FeeMap.is_valid_map m = Except.error (Error.MissingFee Mob.ID) ↔
      ((∀ p ∈ m.entries, p.2 ≠ 0) ∧ m.contains_key Mob.ID = false)) := by
  constructor
  · rintro ⟨p, hp, hp0⟩
    cases hf : m.entries.find? (fun q => q.2 == 0) with
    | none => exact absurd hp0 ((find_zero_none_iff _).mp hf p hp)
    | some x =>
      rcases (find_zero_first m.entries m.ascending x).mp hf with ⟨hx0, hxm, hleast⟩
      have hx : (x.1, 0) ∈ m.entries := by
        have : x = (x.1, 0) := Prod.ext rfl hx0
        rw [← this]
        exact hxm
      refine ⟨x.1, ?_, hx, hleast⟩
      exact (is_valid_map_invalidFee_iff m x.1 0).mpr ⟨rfl, hx, hleast⟩
  · have := is_valid_map_missingFee_iff m Mob.ID
    simpa using this

theorem C10_invalid_fee_takes_precedence_witness :
    ∃ i, FeeMap.is_valid_map (BTreeMap.empty.insert 3 0) =
        Except.error (Error.InvalidFee i 0) ∧
      (i, 0) ∈ (BTreeMap.empty.insert 3 0).entries ∧
      ∀ p ∈ (BTreeMap.empty.insert 3 0).entries, p.2 = 0 → i ≤ p.1 :=
  (C10_invalid_fee_takes_precedence (BTreeMap.empty.insert 3 0)).1
    ⟨(3, 0), by decide, rfl⟩

end FeeMapSpec
